import Mathlib

/-!
Verification development for the CPD_Download repository (UNICEF CPD English
PDF downloader).  Python strings are modelled as `List Char`; the relevant
helper functions of `app.py` / `app1.py` / `app2.py` are translated into
executable Lean definitions, and the specified properties are proved or
refuted against them.
-/

/-- ASCII lowercasing of one character, the model of Python `str.lower` on the
ASCII inputs used throughout the repository. -/
def lowerChar (c : Char) : Char := c.toLower

/-- Lowercase a whole string (list of characters). -/
def lowerStr (l : List Char) : List Char := l.map lowerChar

/-- Characters allowed in a URL scheme after the initial letter
(`urllib.parse.scheme_chars`). -/
def isSchemeChar (c : Char) : Bool :=
  ('a' ≤ c && c ≤ 'z') || ('A' ≤ c && c ≤ 'Z') || ('0' ≤ c && c ≤ '9') ||
    c == '+' || c == '-' || c == '.'

/-- ASCII letter test, the model of the `url[0].isalpha()` guard in
`urllib.parse.urlsplit`. -/
def isAsciiAlpha (c : Char) : Bool :=
  ('a' ≤ c && c ≤ 'z') || ('A' ≤ c && c ≤ 'Z')

/-- Drop a leading `scheme:` from a URL, as `urllib.parse.urlsplit` does:
the text before the first `:` must be nonempty, start with a letter and
consist of scheme characters. -/
def stripScheme (u : List Char) : List Char :=
  match u.findIdx? (fun c => c == ':') with
  | some i =>
    match u.take i with
    | [] => u
    | c :: rest => if isAsciiAlpha c && rest.all isSchemeChar then u.drop (i + 1) else u
  | none => u

/-- Drop a leading `//netloc` (authority) component: everything after the
`//` up to, but not including, the first `/`, `?` or `#`. -/
def stripNetloc (u : List Char) : List Char :=
  match u with
  | '/' :: '/' :: rest => rest.dropWhile (fun c => !(c == '/' || c == '?' || c == '#'))
  | _ => u

/-- The `path` component of `urllib.parse.urlparse`: strip scheme, then the
authority, then cut at the first `#` (fragment) and `?` (query). -/
def urlPath (u : List Char) : List Char :=
  (((stripNetloc (stripScheme u)).takeWhile (fun c => c != '#')).takeWhile
    (fun c => c != '?'))

/-- `os.path.basename`: the text after the last `/`. -/
def basenameOf (p : List Char) : List Char :=
  ((p.reverse).takeWhile (fun c => c != '/')).reverse

/-- The four English filename suffix markers tested by the classifier. -/
def enMarkers : List (List Char) :=
  ["-en.pdf".toList, "_en.pdf".toList, "-eng.pdf".toList, "_eng.pdf".toList]

/-- The URL/anchor tokens tested by the classifier's second rule. -/
def enTokens : List (List Char) :=
  ["/en/".toList, "lang=en".toList, "language=en".toList,
   "locale=en".toList, "english".toList]

/-- The lowercased basename of the URL path (`fn` in `guess_is_english`). -/
def urlFilename (href : List Char) : List Char :=
  lowerStr (basenameOf (urlPath href))

/-- Python's substring test `n in h`. -/
def containsSub (n h : List Char) : Bool := decide (n <:+: h)

/-- Rule 1 of the classifier: does the lowercased basename contain one of the
four markers as a substring (Python's `sfx in fn`)? -/
def rule1 (href : List Char) : Bool :=
  enMarkers.any (fun m => containsSub m (urlFilename href))

/-- Python `\s` on the ASCII range. -/
def isPySpace (c : Char) : Bool :=
  c == ' ' || c == '\t' || c == '\n' || c == '\r' ||
    c == Char.ofNat 11 || c == Char.ofNat 12

/-- Opening boundary class `[\(\[\s]` of the standalone-`en` regex. -/
def openBound (c : Char) : Bool := c == '(' || c == '[' || isPySpace c

/-- Closing boundary class `[\)\]\s]` of the standalone-`en` regex. -/
def closeBound (c : Char) : Bool := c == ')' || c == ']' || isPySpace c

/-- Rule 3 of the classifier: `re.search` of `[\(\[\s]en[\)\]\s]`, i.e. some
window of four consecutive characters is boundary, `e`, `n`, boundary. -/
def rule3 : List Char → Bool
  | a :: b :: c :: d :: rest =>
    (openBound a && b == 'e' && c == 'n' && closeBound d) ||
      rule3 (b :: c :: d :: rest)
  | _ => false

/-- The combined lowercased haystack `s_low` of `guess_is_english`. -/
def sLowOf (href text : List Char) : List Char := lowerStr (href ++ ' ' :: text)

/-- `guess_is_english` from `app.py` (identical in `app1.py` / `app2.py`):
rule 1 (filename marker substring), rule 2 (URL/anchor token substring),
rule 3 (standalone `en` bounded by parentheses/brackets/whitespace). -/
def guess_is_english (href text : List Char) : Bool :=
  let sLow := sLowOf href text
  if rule1 href then true
  else if enTokens.any (fun t => containsSub t sLow) then true
  else if rule3 sLow then true
  else false

/-- The final step of `safe_filename_from_url`:
`name if name.lower().endswith(".pdf") else f"{name}.pdf"`. -/
def forcePdfExt (name : List Char) : List Char :=
  if ".pdf".toList <:+ lowerStr name then name else name ++ ".pdf".toList

/-- `safe_filename_from_url` from `app.py`: basename of the URL path
(default `document.pdf` when empty), with `.pdf` appended unless already
present case-insensitively. -/
def safe_filename_from_url (url : List Char) : List Char :=
  forcePdfExt
    (if (basenameOf (urlPath url)).isEmpty then "document.pdf".toList
     else basenameOf (urlPath url))

/-- The de-duplication stage shared by `collect_pdf_links_with_session`
(`app.py`), `collect_pdf_links` (`app1.py`) and `parse_pdf_links`
(`app2.py`): walk the scanned `(url, anchor_text)` pairs, skipping a pair
whose URL was already seen, otherwise keeping it and recording its URL. -/
def dedupGo (seen : List (List Char)) :
    List (List Char × List Char) → List (List Char × List Char)
  | [] => []
  | (u, t) :: rest =>
    if u ∈ seen then dedupGo seen rest else (u, t) :: dedupGo (u :: seen) rest

/-- The `seen`-set starts empty. -/
def dedupLinks (l : List (List Char × List Char)) : List (List Char × List Char) :=
  dedupGo [] l

/-- Fuel-driven decimal digit expansion (most significant digit first). -/
def natDigitsAux : Nat → Nat → List Char
  | 0, _ => []
  | fuel + 1, n =>
    if n < 10 then [Nat.digitChar n]
    else natDigitsAux fuel (n / 10) ++ [Nat.digitChar (n % 10)]

/-- Decimal rendering of a natural number, the model of Python's `str(i)`
inside the collision rename `f"_{i}"`. -/
def natDigits (n : Nat) : List Char := natDigitsAux (n + 1) n

/-- Case-insensitive `.pdf` suffix test, the model of the `re.I` regex
`(\.pdf)$` having a match. -/
def endsPdfCI (s : List Char) : Bool := decide (".pdf".toList <:+ lowerStr s)

/-- One application of `re.sub(r"(\.pdf)$", f"_{i}\1", base, flags=re.I)`:
insert `_i` before the final `.pdf` (whose original casing is preserved by
the backreference) when present, otherwise leave the name unchanged. -/
def renamePdf (base : List Char) (i : Nat) : List Char :=
  if endsPdfCI base then
    base.take (base.length - 4) ++ '_' :: natDigits i ++ base.drop (base.length - 4)
  else base

/-- The `while fn in z.namelist(): fn = re.sub(...); i += 1` loop of
`make_zip`, with explicit fuel since the Python loop is unbounded. -/
def resolveLoop (names : List (List Char)) (base : List Char) :
    List Char → Nat → Nat → Option (List Char)
  | fn, _, 0 => if fn ∈ names then none else some fn
  | fn, i, fuel + 1 =>
    if fn ∈ names then resolveLoop names base (renamePdf base i) (i + 1) fuel
    else some fn

/-- Resolve the output name of one file: start from the original name with
counter 2, as `base, i, fn = fname, 2, fname` does. -/
def resolveName (names : List (List Char)) (base : List Char) (fuel : Nat) :
    Option (List Char) :=
  resolveLoop names base base 2 fuel

/-- The writing loop of `make_zip`; the archive being built is modelled as
the ordered list of `(entry name, bytes)` pairs, and `z.namelist()` as the
names of the entries written so far. -/
def makeZipGo (fuel : Nat) (entries : List (List Char × List Nat)) :
    List (List Char × List Nat) → Option (List (List Char × List Nat))
  | [] => some entries
  | (fname, data) :: rest =>
    match resolveName (entries.map Prod.fst) fname fuel with
    | none => none
    | some fn => makeZipGo fuel (entries ++ [(fn, data)]) rest

/-- `make_zip` from `app.py`/`app2.py`, fuelled. -/
def make_zip (files : List (List Char × List Nat)) (fuel : Nat) :
    Option (List (List Char × List Nat)) :=
  makeZipGo fuel [] files

/-- Outcomes of the four scan strategies of `collect_pdf_links` (`app2.py`)
for one page.  `browserScan` is the result of entering a `BrowserSession`
and calling `render_html` (an exception propagates, hence `Except`); the
request-API, hardened-HTTP and mirror fetchers swallow their own errors
and return `None` on failure. -/
structure ScanEnv where
  playwrightReady : Bool
  browserScan : Except (List Char) (List Char)
  requestApiScan : Option (List Char)
  hardenedScan : Option (List Char)
  mirrorScan : Option (List Char)

/-- Python truthiness of an optional string result: `if html:` accepts only
a present, non-empty text. -/
def truthyHtml : Option (List Char) → Option (List Char)
  | some h => if h.isEmpty then none else some h
  | none => none

/-- The message of the final `RuntimeError` in `collect_pdf_links`. -/
def allFailedMsg : List Char := "All fetch strategies failed (403/blocked)".toList

/-- `collect_pdf_links` from `app2.py`, modelled up to the deterministic
`parse_pdf_links` post-processing: with playwright ready the browser result
is returned (or its exception propagates); otherwise the request-API,
hardened and mirror strategies are consulted in order, each accepted when
truthy; if none is, the final `RuntimeError` is raised. -/
def collect_pdf_links (env : ScanEnv) : Except (List Char) (List Char) :=
  if env.playwrightReady then
    match env.browserScan with
    | .ok html => .ok html
    | .error e => .error e
  else
    match truthyHtml env.requestApiScan with
    | some html => .ok html
    | none =>
      match truthyHtml env.hardenedScan with
      | some html => .ok html
      | none =>
        match truthyHtml env.mirrorScan with
        | some html => .ok html
        | none => .error allFailedMsg

/-- Outcome of one hardened `sess.get` in the fallback loop of
`download_pdf_smart` (`app2.py`): the call either raises (requests errors
are not caught there) or yields a status, a content-type header value
(empty when the header is missing) and a body. -/
inductive HttpAttempt where
  | raises (e : List Char)
  | resp (status : Nat) (ctype : List Char) (body : List Nat)

/-- The content-type acceptance test of the download paths:
`"application/pdf" in ct or "application/octet-stream" in ct or ct == ""`
on the lowercased header value. -/
def ctypeOk (ctype : List Char) : Bool :=
  containsSub "application/pdf".toList (lowerStr ctype) ||
    containsSub "application/octet-stream".toList (lowerStr ctype) ||
    (lowerStr ctype).isEmpty

/-- The message of the final `RuntimeError` in `download_pdf_smart`. -/
def blockedMsg : List Char := "Download blocked or not a PDF".toList

/-- The hardened fallback loop of `download_pdf_smart`: accept a 200
response whose content-type is PDF-ish or missing; a raising GET
propagates; exhausting the attempts raises the generic failure. -/
def hardenedLoop : List HttpAttempt → Except (List Char) (List Nat)
  | [] => .error blockedMsg
  | .raises e :: _ => .error e
  | .resp status ctype body :: rest =>
    if status == 200 && ctypeOk ctype then .ok body else hardenedLoop rest

/-- Environment of one `download_pdf_smart` call: `requestPdf` is the
outcome of `BrowserSession.request_pdf` (it may raise, return `None` on a
rejected response, or return bytes), `clickDownload` the outcome of
`BrowserSession.click_download`, and `hardenedAttempts` the would-be
responses of the hardened GET attempts. -/
structure DlEnv where
  playwrightReady : Bool
  requestPdf : Except (List Char) (Option (List Nat))
  clickDownload : Except (List Char) (List Nat)
  hardenedAttempts : List HttpAttempt

/-- `download_pdf_smart` from `app2.py`: with playwright ready, the
in-context request is tried and its truthy bytes returned, otherwise the
click-simulation result is returned as-is (exceptions propagate — there is
no fallback to the hardened GET); without playwright, three hardened GET
attempts run. -/
def download_pdf_smart (env : DlEnv) : Except (List Char) (List Nat) :=
  if env.playwrightReady then
    match env.requestPdf with
    | .error e => .error e
    | .ok (some b) => if b.isEmpty then env.clickDownload else .ok b
    | .ok none => env.clickDownload
  else hardenedLoop (env.hardenedAttempts.take 3)

/-- Outcome of one attempt iteration in `DownloadSession.download_pdf`
(`app.py`): the `_direct_request` result and the `_download_via_event`
result. -/
structure AttemptOutcome where
  direct : Except (List Char) (Option (List Nat))
  viaEvent : Except (List Char) (List Nat)

/-- The message of the final `RuntimeError` in `download_pdf`. -/
def unknownFailureMsg : List Char := "Unknown download failure".toList

/-- The retry loop of `DownloadSession.download_pdf`: per attempt, a truthy
body from `_direct_request` is returned; an exception there is recorded as
the last error; then a truthy body from `_download_via_event` is returned,
an exception there replaces the last error; a falsy body falls through.
After the attempt budget, the last error is re-raised, or the generic
failure when none was recorded. -/
def download_pdf_loop :
    List AttemptOutcome → Option (List Char) → Except (List Char) (List Nat)
  | [], some e => .error e
  | [], none => .error unknownFailureMsg
  | a :: rest, lastErr =>
    match a.direct with
    | .ok (some b) =>
      if b.isEmpty then
        match a.viaEvent with
        | .ok b2 =>
          if b2.isEmpty then download_pdf_loop rest lastErr else .ok b2
        | .error e2 => download_pdf_loop rest (some e2)
      else .ok b
    | .ok none =>
      match a.viaEvent with
      | .ok b2 => if b2.isEmpty then download_pdf_loop rest lastErr else .ok b2
      | .error e2 => download_pdf_loop rest (some e2)
    | .error e =>
      match a.viaEvent with
      | .ok b2 => if b2.isEmpty then download_pdf_loop rest (some e) else .ok b2
      | .error e2 => download_pdf_loop rest (some e2)

/-- `DownloadSession.download_pdf`: the loop starts with no recorded
error. -/
def download_pdf (attempts : List AttemptOutcome) : Except (List Char) (List Nat) :=
  download_pdf_loop attempts none

/-- One attempt of `download_pdf` fails: the direct request yields nothing
truthy or raises, and the event download yields an empty body or raises. -/
def attemptFails (a : AttemptOutcome) : Prop :=
  (a.direct = .ok none ∨ a.direct = .ok (some []) ∨ ∃ e, a.direct = .error e) ∧
    (a.viaEvent = .ok [] ∨ ∃ e, a.viaEvent = .error e)

/-- The last error recorded by a sequence of failing attempts. -/
def lastErrOf : List AttemptOutcome → Option (List Char) → Option (List Char)
  | [], le => le
  | a :: rest, le =>
    match a.direct, a.viaEvent with
    | .error _, .error e2 => lastErrOf rest (some e2)
    | .error e, .ok _ => lastErrOf rest (some e)
    | .ok _, .error e2 => lastErrOf rest (some e2)
    | .ok _, .ok _ => lastErrOf rest le

/-- Modelled from the spec: the diacritic-decomposition table of the text
normalizer in the metadata-extraction module, which is not among the three
vendored app files.  Common accented Latin letters map to their base
letter; anything else is left alone. -/
def diacriticTable : List (Char × Char) :=
  [('á', 'a'), ('à', 'a'), ('â', 'a'), ('ä', 'a'), ('ã', 'a'), ('å', 'a'),
   ('ç', 'c'), ('é', 'e'), ('è', 'e'), ('ê', 'e'), ('ë', 'e'),
   ('í', 'i'), ('ì', 'i'), ('î', 'i'), ('ï', 'i'), ('ñ', 'n'),
   ('ó', 'o'), ('ò', 'o'), ('ô', 'o'), ('ö', 'o'), ('õ', 'o'),
   ('ú', 'u'), ('ù', 'u'), ('û', 'u'), ('ü', 'u'), ('ý', 'y'), ('ÿ', 'y'),
   ('Á', 'A'), ('À', 'A'), ('Â', 'A'), ('Ä', 'A'), ('Ã', 'A'), ('Å', 'A'),
   ('Ç', 'C'), ('É', 'E'), ('È', 'E'), ('Ê', 'E'), ('Ë', 'E'),
   ('Í', 'I'), ('Ì', 'I'), ('Î', 'I'), ('Ï', 'I'), ('Ñ', 'N'),
   ('Ó', 'O'), ('Ò', 'O'), ('Ô', 'O'), ('Ö', 'O'), ('Õ', 'O'),
   ('Ú', 'U'), ('Ù', 'U'), ('Û', 'U'), ('Ü', 'U'), ('Ý', 'Y')]

/-- Modelled from the spec: decompose one accented character to its base
letter, leaving every other character unchanged. -/
def foldDiacritic (c : Char) : Char :=
  match diacriticTable.find? (fun p => p.1 == c) with
  | some p => p.2
  | none => c

/-- ASCII lowercasing by code point, the model of `str.lower` on the ASCII
range (accented letters have already been decomposed before this step). -/
def asciiLower (c : Char) : Char :=
  if 65 ≤ c.toNat && c.toNat ≤ 90 then Char.ofNat (c.toNat + 32) else c

/-- Modelled from the spec: collapse the separator characters — hyphen
(45), slash (47), underscore (95) and dot (46) — to a space. -/
def sepToSpace (c : Char) : Char :=
  if c.toNat == 45 || c.toNat == 47 || c.toNat == 95 || c.toNat == 46 then ' '
  else c

/-- The per-character pipeline of the normalizer: decompose, lowercase,
separator to space. -/
def normChar (c : Char) : Char := sepToSpace (asciiLower (foldDiacritic c))

/-- Modelled from the spec: the characters that survive the stripping step —
word characters (ASCII letters and digits), the apostrophe, and whitespace
(kept so the final stage can collapse whitespace runs). -/
def isKeepChar (c : Char) : Bool :=
  (97 ≤ c.toNat && c.toNat ≤ 122) || (48 ≤ c.toNat && c.toNat ≤ 57) ||
    c.toNat == 39 || isPySpace c

/-- Character stage of the normalizer: map every character through the
pipeline, then strip the non-word/non-apostrophe/non-space characters. -/
def normalizeChars (l : List Char) : List Char :=
  (l.map normChar).filter isKeepChar

/-- Prepend a character to the first segment of a segment list. -/
def consHead (c : Char) : List (List Char) → List (List Char)
  | [] => [[c]]
  | w :: ws => (c :: w) :: ws

/-- Split on whitespace, keeping empty segments (one per separator run
boundary). -/
def splitSp : List Char → List (List Char)
  | [] => [[]]
  | c :: rest =>
    if isPySpace c then [] :: splitSp rest else consHead c (splitSp rest)

/-- The whitespace-separated words of a string (empty segments dropped). -/
def wordsOf (l : List Char) : List (List Char) :=
  (splitSp l).filter (fun w => !w.isEmpty)

/-- Join words with single spaces. -/
def joinWords : List (List Char) → List Char
  | [] => []
  | [w] => w
  | w :: ws => w ++ ' ' :: joinWords ws

/-- Modelled from the spec: `normalize` of the metadata-extraction module
(absent from the vendored sources): decompose accented characters to base
letters, lowercase, collapse the separators (hyphen, slash, underscore,
dot) to spaces, strip the remaining non-word/non-apostrophe characters,
and collapse whitespace runs to single spaces trimming the edges. -/
def normalizeText (s : List Char) : List Char :=
  joinWords (wordsOf (normalizeChars s))

/-- Lexicographic code-point comparison of strings, the model of Python's
string ordering used by `sorted`. -/
def lexLe : List Char → List Char → Bool
  | [], _ => true
  | _ :: _, [] => false
  | a :: as, b :: bs =>
    if a < b then true else if b < a then false else lexLe as bs

/-- Insertion step of the sort modelling `sorted(...)`. -/
def insertLex (x : List Char) : List (List Char) → List (List Char)
  | [] => [x]
  | y :: ys => if lexLe x y then x :: y :: ys else y :: insertLex x ys

/-- Sort a list of strings lexicographically, the model of `sorted(...)`. -/
def sortLex : List (List Char) → List (List Char)
  | [] => []
  | x :: xs => insertLex x (sortLex xs)

/-- First-occurrence de-duplication of a URL list, the model of `set(...)`
over the regex matches (its iteration order is irrelevant since the result
is sorted afterwards). -/
def dedupUrlsGo (seen : List (List Char)) : List (List Char) → List (List Char)
  | [] => []
  | u :: rest =>
    if u ∈ seen then dedupUrlsGo seen rest else u :: dedupUrlsGo (u :: seen) rest

/-- The regex fallback branch of `parse_pdf_links` (`app2.py`): the distinct
`.pdf` URLs found by `re.findall` in the raw text, sorted, each paired with
an empty anchor text (`[(u, "") for u in sorted(urls)]`). -/
def regexFallback (found : List (List Char)) : List (List Char × List Char) :=
  (sortLex (dedupUrlsGo [] found)).map (fun u => (u, ([] : List Char)))

/-- `parse_pdf_links` from `app2.py`, modelled over the outcome of the DOM
extraction (`none` when parsing raised, otherwise the extracted
`(joined url, normalized anchor text)` pairs in document order) and the
ordered list of regex matches in the raw text: a nonempty anchor list is
de-duplicated and returned, otherwise the regex fallback runs. -/
def parse_pdf_links (links : Option (List (List Char × List Char)))
    (found : List (List Char)) : List (List Char × List Char) :=
  match links with
  | some l => if l.isEmpty then regexFallback found else dedupLinks l
  | none => regexFallback found

/-- Soundness of the standalone-`en` rule: whenever it fires, the haystack
splits around a four-character window whose middle is `en` and whose edges
are parenthesis/bracket/whitespace boundary characters. -/
theorem rule3_sound : ∀ (l : List Char), rule3 l = true →
    ∃ pre a d post, l = pre ++ a :: 'e' :: 'n' :: d :: post ∧
      openBound a = true ∧ closeBound d = true
  | a :: b :: c :: d :: rest, h => by
    simp only [rule3, Bool.or_eq_true, Bool.and_eq_true, beq_iff_eq] at h
    rcases h with ⟨⟨⟨ha, hb⟩, hc⟩, hd⟩ | h
    · exact ⟨[], a, d, rest, by rw [hb, hc]; rfl, ha, hd⟩
    · obtain ⟨pre, x, y, post, heq, ho, hcl⟩ := rule3_sound (b :: c :: d :: rest) h
      exact ⟨a :: pre, x, y, post, by rw [List.cons_append, ← heq], ho, hcl⟩
  | [], h => by simp [rule3] at h
  | [_], h => by simp [rule3] at h
  | [_, _], h => by simp [rule3] at h
  | [_, _, _], h => by simp [rule3] at h

/-- C4: the classifier satisfies the stated boundary cases —
`is_english("doc-en.pdf", "") = true`, `is_english("doc.pdf", "Report (EN)") = true`,
`is_english("doc.pdf", "England report") = false` — and the standalone-`en`
rule only fires on a whole token bounded by parentheses, brackets or
whitespace, never on a substring inside a longer word. -/
theorem claim_C4_classifier_boundary_cases :
    guess_is_english "doc-en.pdf".toList "".toList = true ∧
    guess_is_english "doc.pdf".toList "Report (EN)".toList = true ∧
    guess_is_english "doc.pdf".toList "England report".toList = false ∧
    (∀ l : List Char, rule3 l = true →
      ∃ pre a d post, l = pre ++ a :: 'e' :: 'n' :: d :: post ∧
        openBound a = true ∧ closeBound d = true) :=
  ⟨by decide, by decide, by decide, rule3_sound⟩

/-- C4 witness: the boundary-token soundness applied at the concrete
haystack of the second boundary case. -/
theorem claim_C4_classifier_boundary_cases_witness :
    ∃ pre a d post, "doc.pdf report (en)".toList =
      pre ++ a :: 'e' :: 'n' :: d :: post ∧
      openBound a = true ∧ closeBound d = true :=
  claim_C4_classifier_boundary_cases.2.2.2 "doc.pdf report (en)".toList (by decide)

/-- C3 counterexample: for the URL `https://x.org/files/report-en.pdf.bak`
the basename contains the marker `-en.pdf` without ending in any marker, yet
rule 1 fires (the code tests substring containment, not a suffix), so the
classifier returns `true`. -/
theorem claim_C3_counterexample :
    rule1 "https://x.org/files/report-en.pdf.bak".toList = true ∧
    enMarkers.any
      (fun m => decide (m <:+ urlFilename "https://x.org/files/report-en.pdf.bak".toList)) = false ∧
    guess_is_english "https://x.org/files/report-en.pdf.bak".toList "".toList = true :=
  ⟨by decide, by decide, by decide⟩

/-- C3 (amended): rule 1 fires exactly when the lowercased basename of the
URL path contains one of the four markers `-en.pdf`, `_en.pdf`, `-eng.pdf`,
`_eng.pdf` as a substring; in particular every URL whose filename ends with
such a marker is classified English, but ending is not required. -/
theorem claim_C3_rule1_marker_containment :
    (∀ href text : List Char,
      enMarkers.any (fun m => decide (m <:+ urlFilename href)) = true →
      guess_is_english href text = true) ∧
    (∀ href : List Char,
      rule1 href = true ↔ ∃ m ∈ enMarkers, m <:+: urlFilename href) := by
  have hiff : ∀ href : List Char,
      rule1 href = true ↔ ∃ m ∈ enMarkers, m <:+: urlFilename href := by
    intro href
    simp only [rule1, containsSub, List.any_eq_true, decide_eq_true_eq]
  refine ⟨?_, hiff⟩
  intro href text h
  simp only [List.any_eq_true, decide_eq_true_eq] at h
  obtain ⟨m, hm, hsfx⟩ := h
  have h1 : rule1 href = true := (hiff href).2 ⟨m, hm, hsfx.isInfix⟩
  simp only [guess_is_english, h1, if_true]

/-- C3 witness: a URL whose filename ends in `_en.pdf` is classified
English via the amended rule-1 characterisation. -/
theorem claim_C3_rule1_marker_containment_witness :
    guess_is_english "https://x.org/cpd_en.pdf".toList "".toList = true :=
  claim_C3_rule1_marker_containment.1
    "https://x.org/cpd_en.pdf".toList "".toList (by decide)

/-- Whatever the input name, the forced name ends in `.pdf`
case-insensitively. -/
theorem forcePdfExt_suffix (name : List Char) :
    ".pdf".toList <:+ lowerStr (forcePdfExt name) := by
  by_cases h : ".pdf".toList <:+ lowerStr name
  · rw [forcePdfExt, if_pos h]; exact h
  · rw [forcePdfExt, if_neg h]
    have h3 : lowerStr ".pdf".toList = ".pdf".toList := by decide
    have h2 : lowerStr (name ++ ".pdf".toList) = lowerStr name ++ ".pdf".toList := by
      rw [lowerStr, List.map_append]
      rw [lowerStr] at h3
      rw [h3]
      rfl
    rw [h2]
    exact List.suffix_append _ _

/-- C9: `safe_filename_from_url` returns the basename of the URL path forced
to end in `.pdf`: an empty basename yields `document.pdf`, a basename already
ending in `.pdf` (case-insensitively) is returned unchanged, any other
basename gets `.pdf` appended, and the result always ends in `.pdf`
case-insensitively. -/
theorem claim_C9_safe_filename :
    ∀ (url b : List Char), basenameOf (urlPath url) = b →
      (b = [] → safe_filename_from_url url = "document.pdf".toList) ∧
      (b ≠ [] →
        (".pdf".toList <:+ lowerStr b → safe_filename_from_url url = b) ∧
        (¬ ".pdf".toList <:+ lowerStr b →
          safe_filename_from_url url = b ++ ".pdf".toList)) ∧
      ".pdf".toList <:+ lowerStr (safe_filename_from_url url) := by
  intro url b hb
  have hrw : safe_filename_from_url url
      = forcePdfExt (if b.isEmpty then "document.pdf".toList else b) := by
    rw [safe_filename_from_url, hb]
  refine ⟨?_, ?_, ?_⟩
  · intro h
    subst h
    rw [hrw]
    decide
  · intro hne
    have hbe : b.isEmpty = false := by
      cases b with
      | nil => exact absurd rfl hne
      | cons c rest => rfl
    rw [hbe] at hrw
    simp only [Bool.false_eq_true, if_false] at hrw
    constructor
    · intro hsfx
      rw [hrw, forcePdfExt, if_pos hsfx]
    · intro hsfx
      rw [hrw, forcePdfExt, if_neg hsfx]
  · rw [hrw]
    exact forcePdfExt_suffix _

/-- C9 witness: the three branches evaluated at concrete URLs. -/
theorem claim_C9_safe_filename_witness :
    safe_filename_from_url "https://x.org/a/".toList = "document.pdf".toList ∧
    safe_filename_from_url "https://x.org/a/b.PDF?x=1".toList = "b.PDF".toList ∧
    safe_filename_from_url "https://x.org/a/name.txt".toList
      = "name.txt".toList ++ ".pdf".toList :=
  ⟨(claim_C9_safe_filename "https://x.org/a/".toList [] (by decide)).1 rfl,
   ((claim_C9_safe_filename "https://x.org/a/b.PDF?x=1".toList "b.PDF".toList
      (by decide)).2.1 (by decide)).1 (by decide),
   ((claim_C9_safe_filename "https://x.org/a/name.txt".toList "name.txt".toList
      (by decide)).2.1 (by decide)).2 (by decide)⟩

theorem dedupGo_sublist :
    ∀ (l : List (List Char × List Char)) (seen : List (List Char)),
      (dedupGo seen l).Sublist l
  | [], _ => List.Sublist.refl []
  | (u, t) :: rest, seen => by
    rw [dedupGo]
    by_cases hu : u ∈ seen
    · rw [if_pos hu]
      exact (dedupGo_sublist rest seen).cons (u, t)
    · rw [if_neg hu]
      exact (dedupGo_sublist rest (u :: seen)).cons₂ (u, t)

theorem dedupGo_find :
    ∀ (l : List (List Char × List Char)) (seen : List (List Char))
      (u t : List Char), (u, t) ∈ dedupGo seen l →
      u ∉ seen ∧ l.find? (fun p => p.1 == u) = some (u, t)
  | [], seen, u, t, h => by simp [dedupGo] at h
  | (v, s) :: rest, seen, u, t, h => by
    rw [dedupGo] at h
    by_cases hv : v ∈ seen
    · rw [if_pos hv] at h
      obtain ⟨hns, hfind⟩ := dedupGo_find rest seen u t h
      have hne : v ≠ u := fun he => hns (he ▸ hv)
      refine ⟨hns, ?_⟩
      rw [List.find?_cons_of_neg, hfind]
      simpa using hne
    · rw [if_neg hv] at h
      rcases List.mem_cons.1 h with heq | hmem
      · obtain ⟨hu, ht⟩ := Prod.mk.injEq .. ▸ heq
        subst hu
        subst ht
        refine ⟨hv, ?_⟩
        rw [List.find?_cons_of_pos]
        simp
      · obtain ⟨hns, hfind⟩ := dedupGo_find rest (v :: seen) u t hmem
        have hne : v ≠ u := fun he => hns (he ▸ List.mem_cons_self v seen)
        refine ⟨fun hs => hns (List.mem_cons_of_mem v hs), ?_⟩
        rw [List.find?_cons_of_neg, hfind]
        simpa using hne

theorem dedupGo_countP :
    ∀ (l : List (List Char × List Char)) (seen : List (List Char))
      (u : List Char),
      (dedupGo seen l).countP (fun p => p.1 == u)
        = if u ∉ seen ∧ u ∈ l.map Prod.fst then 1 else 0
  | [], seen, u => by simp [dedupGo]
  | (v, s) :: rest, seen, u => by
    rw [dedupGo]
    by_cases hv : v ∈ seen
    · rw [if_pos hv, dedupGo_countP rest seen u]
      by_cases huv : u = v
      · subst huv
        simp [hv]
      · simp only [List.map_cons, List.mem_cons]
        have : (u = v ∨ u ∈ rest.map Prod.fst) ↔ u ∈ rest.map Prod.fst := by
          constructor
          · rintro (h | h)
            · exact absurd h huv
            · exact h
          · exact Or.inr
        exact if_congr (and_congr_right fun _ => this.symm) rfl rfl
    · rw [if_neg hv, List.countP_cons, dedupGo_countP rest (v :: seen) u]
      by_cases huv : u = v
      · subst huv
        simp [hv, List.mem_cons]
      · have h1 : (v == u) = false := by
          simp only [beq_eq_false_iff_ne, ne_eq]
          exact fun h => huv h.symm
        have h2 : (u ∉ v :: seen ∧ u ∈ rest.map Prod.fst)
            ↔ (u ∉ seen ∧ u ∈ ((v, s) :: rest).map Prod.fst) := by
          simp only [List.mem_cons, List.map_cons, not_or]
          constructor
          · rintro ⟨⟨_, hs⟩, hm⟩
            exact ⟨hs, Or.inr hm⟩
          · rintro ⟨hs, hm⟩
            rcases hm with h | h
            · exact absurd h huv
            · exact ⟨⟨huv, hs⟩, h⟩
        rw [h1]
        simp only [Bool.false_eq_true, if_false, add_zero]
        rw [if_congr h2 rfl rfl]

theorem natDigitsAux_fuel_irrel :
    ∀ (fuel fuel2 n : Nat), n < fuel → n < fuel2 →
      natDigitsAux fuel n = natDigitsAux fuel2 n
  | 0, _, n, h, _ => absurd h (Nat.not_lt_zero n)
  | _ + 1, 0, n, _, h2 => absurd h2 (Nat.not_lt_zero n)
  | fuel + 1, fuel2 + 1, n, h, h2 => by
    rw [natDigitsAux, natDigitsAux]
    by_cases hn : n < 10
    · rw [if_pos hn, if_pos hn]
    · rw [if_neg hn, if_neg hn]
      have hd : n / 10 < n := Nat.div_lt_self (by omega) (by omega)
      rw [natDigitsAux_fuel_irrel fuel fuel2 (n / 10) (by omega) (by omega)]

/-- Unfolding equation for `natDigits`. -/
theorem natDigits_unfold (n : Nat) :
    natDigits n = if n < 10 then [Nat.digitChar n]
      else natDigits (n / 10) ++ [Nat.digitChar (n % 10)] := by
  rw [natDigits, natDigitsAux]
  by_cases hn : n < 10
  · rw [if_pos hn, if_pos hn]
  · rw [if_neg hn, if_neg hn]
    have hd : n / 10 < n := Nat.div_lt_self (by omega) (by omega)
    rw [natDigits, natDigitsAux_fuel_irrel n (n / 10 + 1) (n / 10) (by omega) (by omega)]

theorem natDigits_ne_nil (n : Nat) : natDigits n ≠ [] := by
  rw [natDigits_unfold]
  by_cases hn : n < 10
  · rw [if_pos hn]; exact List.cons_ne_nil _ _
  · rw [if_neg hn]
    intro h
    exact absurd (List.append_eq_nil.1 h).2 (List.cons_ne_nil _ _)

theorem digitChar_inj (a b : Nat) (ha : a < 10) (hb : b < 10)
    (h : Nat.digitChar a = Nat.digitChar b) : a = b := by
  interval_cases a <;> interval_cases b <;> first | rfl | exact absurd h (by decide)

theorem natDigits_inj : ∀ (a b : Nat), natDigits a = natDigits b → a = b := by
  intro a
  induction a using Nat.strong_induction_on with
  | _ a IH =>
    intro b h
    rw [natDigits_unfold a, natDigits_unfold b] at h
    by_cases ha : a < 10 <;> by_cases hb : b < 10
    · rw [if_pos ha, if_pos hb] at h
      exact digitChar_inj a b ha hb (List.cons.injEq .. ▸ h).1
    · rw [if_pos ha, if_neg hb] at h
      have hlen := congrArg List.length h
      have hpos := List.length_pos.2 (natDigits_ne_nil (b / 10))
      simp only [List.length_cons, List.length_append, List.length_nil] at hlen
      omega
    · rw [if_neg ha, if_pos hb] at h
      have hlen := congrArg List.length h
      have hpos := List.length_pos.2 (natDigits_ne_nil (a / 10))
      simp only [List.length_cons, List.length_append, List.length_nil] at hlen
      omega
    · rw [if_neg ha, if_neg hb] at h
      obtain ⟨h1, h2⟩ := List.append_inj' h (by rfl)
      have hq : a / 10 = b / 10 :=
        IH (a / 10) (Nat.div_lt_self (by omega) (by omega)) (b / 10) h1
      have hr : a % 10 = b % 10 :=
        digitChar_inj _ _ (Nat.mod_lt a (by omega)) (Nat.mod_lt b (by omega))
          (List.cons.injEq .. ▸ h2).1
      omega

/-- On names with a case-insensitive `.pdf` suffix the rename is injective
in the counter. -/
theorem renamePdf_inj (base : List Char) (h : endsPdfCI base = true)
    (j k : Nat) (he : renamePdf base j = renamePdf base k) : j = k := by
  rw [renamePdf, if_pos h, renamePdf, if_pos h] at he
  have h1 := List.append_cancel_left (List.append_cancel_right he)
  exact natDigits_inj j k (List.cons.injEq .. ▸ h1).2

/-- On names without the `.pdf` suffix the rename is the identity (the regex
fails to match and `re.sub` returns its input). -/
theorem renamePdf_nonpdf (base : List Char) (h : endsPdfCI base = false)
    (i : Nat) : renamePdf base i = base := by
  rw [renamePdf, if_neg (by rw [h]; exact Bool.false_ne_true)]

theorem resolveLoop_some_not_mem :
    ∀ (fuel : Nat) (names : List (List Char)) (base fn : List Char) (i : Nat)
      (r : List Char), resolveLoop names base fn i fuel = some r → r ∉ names
  | 0, names, base, fn, i, r, h => by
    rw [resolveLoop] at h
    by_cases hm : fn ∈ names
    · rw [if_pos hm] at h
      exact absurd h (by simp)
    · rw [if_neg hm] at h
      obtain rfl := Option.some.inj h
      exact hm
  | fuel + 1, names, base, fn, i, r, h => by
    rw [resolveLoop] at h
    by_cases hm : fn ∈ names
    · rw [if_pos hm] at h
      exact resolveLoop_some_not_mem fuel names base _ _ r h
    · rw [if_neg hm] at h
      obtain rfl := Option.some.inj h
      exact hm

theorem resolveLoop_spec :
    ∀ (fuel : Nat) (names : List (List Char)) (base fn : List Char) (i : Nat)
      (r : List Char), resolveLoop names base fn i fuel = some r →
      (fn ∉ names ∧ r = fn) ∨
      (fn ∈ names ∧ ∃ k, i ≤ k ∧ r = renamePdf base k ∧ renamePdf base k ∉ names ∧
        ∀ j, i ≤ j → j < k → renamePdf base j ∈ names)
  | 0, names, base, fn, i, r, h => by
    rw [resolveLoop] at h
    by_cases hm : fn ∈ names
    · rw [if_pos hm] at h
      exact absurd h (by simp)
    · rw [if_neg hm] at h
      exact Or.inl ⟨hm, (Option.some.inj h).symm⟩
  | fuel + 1, names, base, fn, i, r, h => by
    rw [resolveLoop] at h
    by_cases hm : fn ∈ names
    · rw [if_pos hm] at h
      rcases resolveLoop_spec fuel names base (renamePdf base i) (i + 1) r h with
        ⟨hn, hr⟩ | ⟨hin, k, hik, hr, hnk, hall⟩
      · exact Or.inr ⟨hm, i, le_refl i, hr, hn, fun j h1 h2 => absurd h2 (by omega)⟩
      · refine Or.inr ⟨hm, k, by omega, hr, hnk, fun j h1 h2 => ?_⟩
        rcases eq_or_lt_of_le h1 with rfl | hgt
        · exact hin
        · exact hall j (by omega) h2
    · rw [if_neg hm] at h
      exact Or.inl ⟨hm, (Option.some.inj h).symm⟩

theorem resolveLoop_isSome :
    ∀ (fuel : Nat) (names : List (List Char)) (base fn : List Char) (i : Nat),
      (fn ∉ names ∨ ∃ j, i ≤ j ∧ j < i + fuel ∧ renamePdf base j ∉ names) →
      (resolveLoop names base fn i fuel).isSome = true
  | 0, names, base, fn, i, h => by
    rw [resolveLoop]
    rcases h with h | ⟨j, h1, h2, _⟩
    · rw [if_neg h]
      rfl
    · omega
  | fuel + 1, names, base, fn, i, h => by
    rw [resolveLoop]
    by_cases hm : fn ∈ names
    · rw [if_pos hm]
      apply resolveLoop_isSome fuel names base (renamePdf base i) (i + 1)
      rcases h with h | ⟨j, h1, h2, h3⟩
      · exact absurd hm h
      · rcases eq_or_lt_of_le h1 with rfl | hgt
        · exact Or.inl h3
        · exact Or.inr ⟨j, by omega, by omega, h3⟩
    · rw [if_neg hm]
      rfl

/-- Pigeonhole: among `names.length + 1` consecutive rename candidates of a
`.pdf` name at least one is unused, since the candidates are pairwise
distinct. -/
theorem exists_fresh (names : List (List Char)) (base : List Char)
    (h : endsPdfCI base = true) (i : Nat) :
    ∃ j, i ≤ j ∧ j < i + names.length + 1 ∧ renamePdf base j ∉ names := by
  by_contra hc
  push_neg at hc
  have hinto : ∀ j ∈ Finset.Ico i (i + names.length + 1),
      renamePdf base j ∈ names.toFinset := by
    intro j hj
    rw [Finset.mem_Ico] at hj
    exact List.mem_toFinset.2 (hc j hj.1 hj.2)
  have hinj : Set.InjOn (fun j => renamePdf base j)
      (Finset.Ico i (i + names.length + 1)) :=
    fun x _ y _ hxy => renamePdf_inj base h x y hxy
  have hcard := Finset.card_le_card_of_injOn _ hinto hinj
  rw [Nat.card_Ico] at hcard
  have hle := names.toFinset_card_le
  omega

theorem makeZipGo_sound :
    ∀ (files entries : List (List Char × List Nat)) (fuel : Nat)
      (res : List (List Char × List Nat)),
      (entries.map Prod.fst).Nodup → makeZipGo fuel entries files = some res →
      (res.map Prod.fst).Nodup ∧
        res.map Prod.snd = entries.map Prod.snd ++ files.map Prod.snd
  | [], entries, fuel, res, hnd, h => by
    rw [makeZipGo] at h
    obtain rfl := Option.some.inj h
    exact ⟨hnd, by simp⟩
  | (fname, data) :: rest, entries, fuel, res, hnd, h => by
    rcases hres : resolveName (entries.map Prod.fst) fname fuel with _ | fn
    · rw [makeZipGo, hres] at h
      exact absurd h (by simp)
    · rw [makeZipGo, hres] at h
      have hnotin : fn ∉ entries.map Prod.fst :=
        resolveLoop_some_not_mem fuel _ fname fname 2 fn hres
      have hnd2 : ((entries ++ [(fn, data)]).map Prod.fst).Nodup := by
        rw [List.map_append]
        refine hnd.append (List.nodup_singleton fn) ?_
        intro a ha hb
        rw [List.map_singleton, List.mem_singleton] at hb
        subst hb
        exact hnotin ha
      obtain ⟨h1, h2⟩ := makeZipGo_sound rest (entries ++ [(fn, data)]) fuel res hnd2 h
      refine ⟨h1, ?_⟩
      rw [h2, List.map_append]
      simp [List.append_assoc]

theorem makeZipGo_isSome :
    ∀ (files entries : List (List Char × List Nat)) (fuel : Nat),
      (∀ p ∈ files, endsPdfCI p.1 = true) →
      entries.length + files.length ≤ fuel →
      (makeZipGo fuel entries files).isSome = true
  | [], entries, fuel, _, _ => by
    rw [makeZipGo]
    rfl
  | (fname, data) :: rest, entries, fuel, hpdf, hfuel => by
    have hf : endsPdfCI fname = true := hpdf (fname, data) (List.mem_cons_self _ _)
    have hsome : (resolveName (entries.map Prod.fst) fname fuel).isSome = true := by
      apply resolveLoop_isSome
      obtain ⟨j, h1, h2, h3⟩ := exists_fresh (entries.map Prod.fst) fname hf 2
      refine Or.inr ⟨j, h1, ?_, h3⟩
      have hlm : (entries.map Prod.fst).length = entries.length := List.length_map ..
      simp only [List.length_cons] at hfuel
      omega
    rcases hres : resolveName (entries.map Prod.fst) fname fuel with _ | fn
    · rw [hres] at hsome
      exact absurd hsome (by simp)
    · rw [makeZipGo, hres]
      apply makeZipGo_isSome rest (entries ++ [(fn, data)]) fuel
        (fun p hp => hpdf p (List.mem_cons_of_mem _ hp))
      simp only [List.length_append, List.length_cons, List.length_nil] at hfuel ⊢
      omega

/-- C6: building an archive from `[("x.pdf", b1), ("x.pdf", b2)]` yields
exactly the entries `x.pdf` and `x_2.pdf` holding `b1` and `b2`; in general
all entry names of a built archive are distinct (no bytes are ever
overwritten), the bytes are exactly the input bytes in order, and a
colliding name is resolved to `renamePdf base k`, the first counter value
from 2 upward whose rename is unused. -/
theorem claim_C6_zip_collision_policy :
    (∀ b1 b2 : List Nat,
      make_zip [("x.pdf".toList, b1), ("x.pdf".toList, b2)] 2
        = some [("x.pdf".toList, b1), ("x_2.pdf".toList, b2)]) ∧
    (∀ files fuel res, make_zip files fuel = some res →
      (res.map Prod.fst).Nodup ∧ res.map Prod.snd = files.map Prod.snd) ∧
    (∀ names base fuel r, resolveName names base fuel = some r →
      (base ∉ names ∧ r = base) ∨
      (base ∈ names ∧ ∃ k, 2 ≤ k ∧ r = renamePdf base k ∧
        renamePdf base k ∉ names ∧
        ∀ j, 2 ≤ j → j < k → renamePdf base j ∈ names)) := by
  refine ⟨?_, ?_, ?_⟩
  · intro b1 b2
    rfl
  · intro files fuel res h
    obtain ⟨h1, h2⟩ := makeZipGo_sound files [] fuel res (by simp) h
    exact ⟨h1, by simpa using h2⟩
  · intro names base fuel r h
    exact resolveLoop_spec fuel names base base 2 r h

/-- C6 witness: the collision case evaluated concretely; the resulting
entry names are distinct and the bytes are preserved in order. -/
theorem claim_C6_zip_collision_policy_witness :
    (List.map Prod.fst
        [("x.pdf".toList, ([1] : List Nat)), ("x_2.pdf".toList, [2])]).Nodup ∧
    List.map Prod.snd
        [("x.pdf".toList, ([1] : List Nat)), ("x_2.pdf".toList, [2])]
      = List.map Prod.snd
        [("x.pdf".toList, ([1] : List Nat)), ("x.pdf".toList, [2])] :=
  claim_C6_zip_collision_policy.2.1
    [("x.pdf".toList, [1]), ("x.pdf".toList, [2])] 2
    [("x.pdf".toList, [1]), ("x_2.pdf".toList, [2])]
    (claim_C6_zip_collision_policy.1 [1] [2])

theorem resolveLoop_nil_names :
    ∀ (fuel : Nat) (base fn : List Char) (i : Nat),
      resolveLoop [] base fn i fuel = some fn
  | 0, base, fn, i => by
    rw [resolveLoop, if_neg (List.not_mem_nil fn)]
  | fuel + 1, base, fn, i => by
    rw [resolveLoop, if_neg (List.not_mem_nil fn)]

/-- With the name `a.txt` already in the archive, the rename loop spins
forever: the substitution never changes the name, so every fuel runs out. -/
theorem resolveLoop_atxt_spin :
    ∀ (fuel i : Nat),
      resolveLoop ["a.txt".toList] "a.txt".toList "a.txt".toList i fuel = none
  | 0, i => by
    rw [resolveLoop, if_pos (List.mem_singleton.2 rfl)]
  | fuel + 1, i => by
    rw [resolveLoop, if_pos (List.mem_singleton.2 rfl),
      renamePdf_nonpdf "a.txt".toList (by decide) i]
    exact resolveLoop_atxt_spin fuel (i + 1)

theorem make_zip_atxt (fuel : Nat) :
    make_zip [("a.txt".toList, [1]), ("a.txt".toList, [2])] fuel = none := by
  have e1 : resolveName (List.map Prod.fst
      ([] : List (List Char × List Nat))) "a.txt".toList fuel
      = some "a.txt".toList :=
    resolveLoop_nil_names fuel "a.txt".toList "a.txt".toList 2
  have e2 : resolveName (List.map Prod.fst [("a.txt".toList, ([1] : List Nat))])
      "a.txt".toList fuel = none :=
    resolveLoop_atxt_spin fuel 2
  rw [make_zip, makeZipGo, e1]
  show makeZipGo fuel [("a.txt".toList, [1])] [("a.txt".toList, [2])] = none
  rw [makeZipGo, e2]

/-- C7 counterexample: `make_zip` applied to two files both named `a.txt`
never returns, whatever the fuel — the collision loop cannot reach an unused
name because the substitution leaves a non-`.pdf` name unchanged. -/
theorem claim_C7_counterexample :
    ¬ ∃ fuel,
      (make_zip [("a.txt".toList, [1]), ("a.txt".toList, [2])] fuel).isSome
        = true := by
  rintro ⟨fuel, h⟩
  rw [make_zip_atxt fuel] at h
  exact absurd h (by simp)

/-- C7 (amended): the archive builder terminates for every input list whose
filenames all end in `.pdf` case-insensitively — fuel one more than the
number of files always suffices for every collision loop. -/
theorem claim_C7_termination_pdf_names :
    ∀ files : List (List Char × List Nat),
      (∀ p ∈ files, endsPdfCI p.1 = true) →
      (make_zip files (files.length + 1)).isSome = true := by
  intro files h
  apply makeZipGo_isSome files [] (files.length + 1) h
  simp

/-- C7 witness: three colliding `.pdf` names terminate with fuel 4. -/
theorem claim_C7_termination_pdf_names_witness :
    (make_zip [("a.pdf".toList, ([1] : List Nat)), ("a.pdf".toList, [2]),
      ("A.PDF".toList, [3])] 4).isSome = true :=
  claim_C7_termination_pdf_names
    [("a.pdf".toList, [1]), ("a.pdf".toList, [2]), ("A.PDF".toList, [3])]
    (by decide)

/-- C1 counterexample: with playwright ready, a raising browser scan, a
failing request-API scan and a hardened scan that would succeed,
`collect_pdf_links` propagates the browser exception instead of returning
the third strategy's result. -/
theorem claim_C1_counterexample :
    collect_pdf_links
        ⟨true, .error "boom".toList, none, some "longpagehtml".toList, none⟩
      = .error "boom".toList ∧
    (Except.error "boom".toList
      ≠ (.ok "longpagehtml".toList : Except (List Char) (List Char))) :=
  ⟨rfl, by simp⟩

/-- C1 (amended): when the browser strategy is available its outcome —
including a propagated exception — is the whole result and no other
strategy is consulted; when it is unavailable the remaining strategies are
tried in the fixed order request-API, hardened HTTP, mirror, the first
truthy payload is returned (so a hardened success is returned without
invoking the mirror), and the "all fetch strategies failed" error is raised
exactly when all of them fail. -/
theorem claim_C1_scan_strategy_order :
    ∀ env : ScanEnv,
      (env.playwrightReady = true → collect_pdf_links env = env.browserScan) ∧
      (env.playwrightReady = false →
        (∀ h, truthyHtml env.requestApiScan = some h →
            collect_pdf_links env = .ok h) ∧
        (truthyHtml env.requestApiScan = none →
          (∀ h, truthyHtml env.hardenedScan = some h →
              collect_pdf_links env = .ok h) ∧
          (truthyHtml env.hardenedScan = none →
            (∀ h, truthyHtml env.mirrorScan = some h →
                collect_pdf_links env = .ok h) ∧
            (truthyHtml env.mirrorScan = none →
              collect_pdf_links env = .error allFailedMsg)))) := by
  intro env
  constructor
  · intro hr
    rw [collect_pdf_links, if_pos hr]
    rcases hb : env.browserScan with e | h
    · rfl
    · rfl
  · intro hr
    have hneg : ¬ env.playwrightReady = true := by rw [hr]; exact Bool.false_ne_true
    refine ⟨?_, ?_⟩
    · intro h hh
      rw [collect_pdf_links, if_neg hneg, hh]
    · intro h2
      refine ⟨?_, ?_⟩
      · intro h hh
        rw [collect_pdf_links, if_neg hneg, h2, hh]
      · intro h3
        refine ⟨?_, ?_⟩
        · intro h hh
          rw [collect_pdf_links, if_neg hneg, h2, h3, hh]
        · intro h4
          rw [collect_pdf_links, if_neg hneg, h2, h3, h4]

/-- C1 witness: browser unavailable, request-API failing, hardened
succeeding — the hardened payload is returned whatever the mirror held. -/
theorem claim_C1_scan_strategy_order_witness :
    collect_pdf_links
        ⟨false, .error "unavailable".toList, some "".toList,
          some "bightml".toList, some "mirrorhtml".toList⟩
      = .ok "bightml".toList :=
  (((claim_C1_scan_strategy_order
      ⟨false, .error "unavailable".toList, some "".toList,
        some "bightml".toList, some "mirrorhtml".toList⟩).2 rfl).2
    (by decide)).1 "bightml".toList (by decide)

/-- C2 counterexample: with playwright ready, the in-context request yields
nothing and the click download raises; `download_pdf_smart` propagates the
click error even though a hardened GET attempt would have succeeded — there
is no fallback from the browser strategy to the hardened strategy. -/
theorem claim_C2_counterexample :
    download_pdf_smart
        ⟨true, .ok none, .error "click failed".toList,
          [.resp 200 "application/pdf".toList [7]]⟩
      = .error "click failed".toList ∧
    hardenedLoop [HttpAttempt.resp 200 "application/pdf".toList [7]]
      = .ok [7] :=
  ⟨rfl, rfl⟩

theorem download_pdf_loop_all_fail :
    ∀ (attempts : List AttemptOutcome) (le : Option (List Char)),
      (∀ a ∈ attempts, attemptFails a) →
      download_pdf_loop attempts le
        = .error ((lastErrOf attempts le).getD unknownFailureMsg)
  | [], le, _ => by
    cases le with
    | none => rfl
    | some e => rfl
  | a :: rest, le, h => by
    obtain ⟨hd, hv⟩ := h a (List.mem_cons_self a rest)
    have hrest : ∀ x ∈ rest, attemptFails x :=
      fun x hx => h x (List.mem_cons_of_mem _ hx)
    rcases hd with hd | hd | ⟨e, hd⟩ <;> rcases hv with hv | ⟨e2, hv⟩ <;>
      simp only [download_pdf_loop, lastErrOf, hd, hv, List.isEmpty_nil,
        if_true] <;>
      exact download_pdf_loop_all_fail rest _ hrest

/-- C2 (amended): `download_pdf_smart` prefers the browser strategy when
playwright is ready — truthy in-context bytes are returned, a falsy result
hands over to the click-simulation sub-path whose outcome (success or
exception) is final, and an exception of the in-context request propagates;
the hardened GET attempts run only when playwright is not ready, and when
all of them are rejected the generic "Download blocked" error is raised
(not a recorded last error).  `DownloadSession.download_pdf` of `app.py`,
by contrast, re-raises the last error recorded across its failed attempts,
or the generic "Unknown download failure" when none was recorded. -/
theorem claim_C2_download_order :
    (∀ (env : DlEnv) (x : List Nat), env.playwrightReady = true →
      env.requestPdf = .ok (some x) → x ≠ [] →
      download_pdf_smart env = .ok x) ∧
    (∀ env : DlEnv, env.playwrightReady = true →
      (env.requestPdf = .ok none ∨ env.requestPdf = .ok (some [])) →
      download_pdf_smart env = env.clickDownload) ∧
    (∀ (env : DlEnv) (e : List Char), env.playwrightReady = true →
      env.requestPdf = .error e → download_pdf_smart env = .error e) ∧
    (∀ env : DlEnv, env.playwrightReady = false →
      download_pdf_smart env = hardenedLoop (env.hardenedAttempts.take 3)) ∧
    (∀ attempts : List HttpAttempt,
      (∀ a ∈ attempts, ∃ st ct body, a = .resp st ct body ∧
        (st == 200 && ctypeOk ct) = false) →
      hardenedLoop attempts = .error blockedMsg) ∧
    (∀ attempts : List AttemptOutcome, (∀ a ∈ attempts, attemptFails a) →
      download_pdf attempts
        = .error ((lastErrOf attempts none).getD unknownFailureMsg)) := by
  refine ⟨?_, ?_, ?_, ?_, ?_, ?_⟩
  · intro env x hr hreq hx
    obtain ⟨pr, rq, cd, ha⟩ := env
    have hr' : pr = true := hr
    have hreq' : rq = .ok (some x) := hreq
    subst hr'
    subst hreq'
    have hxe : x.isEmpty = false := by
      cases x with
      | nil => exact absurd rfl hx
      | cons c cs => rfl
    show (if x.isEmpty then cd else Except.ok x) = Except.ok x
    rw [hxe]
    simp only [Bool.false_eq_true, if_false]
  · intro env hr hreq
    obtain ⟨pr, rq, cd, ha⟩ := env
    have hr' : pr = true := hr
    subst hr'
    rcases hreq with h | h <;> (have h' : rq = _ := h; subst h'; rfl)
  · intro env e hr hreq
    obtain ⟨pr, rq, cd, ha⟩ := env
    have hr' : pr = true := hr
    have hreq' : rq = .error e := hreq
    subst hr'
    subst hreq'
    rfl
  · intro env hr
    obtain ⟨pr, rq, cd, ha⟩ := env
    have hr' : pr = false := hr
    subst hr'
    rfl
  · intro attempts h
    induction attempts with
    | nil => rfl
    | cons a rest IH =>
      obtain ⟨st, ct, body, rfl, hrej⟩ := h _ (List.mem_cons_self _ _)
      rw [hardenedLoop, hrej]
      simp only [Bool.false_eq_true, if_false]
      exact IH (fun x hx => h x (List.mem_cons_of_mem _ hx))
  · intro attempts h
    exact download_pdf_loop_all_fail attempts none h

/-- C2 witness: a truthy in-context body is returned directly, and the
`app.py` loop re-raises the last recorded error of its failed attempts. -/
theorem claim_C2_download_order_witness :
    download_pdf_smart ⟨true, .ok (some [7]), .error "unused".toList, []⟩
      = .ok [7] ∧
    download_pdf [⟨Except.error "first".toList, Except.error "second".toList⟩]
      = .error "second".toList := by
  constructor
  · exact claim_C2_download_order.1
      ⟨true, .ok (some [7]), .error "unused".toList, []⟩ [7] rfl rfl
      (by decide)
  · have h := claim_C2_download_order.2.2.2.2.2
      [⟨Except.error "first".toList, Except.error "second".toList⟩]
      (by
        intro a ha
        rw [List.mem_singleton] at ha
        subst ha
        exact ⟨Or.inr (Or.inr ⟨"first".toList, rfl⟩),
          Or.inr ⟨"second".toList, rfl⟩⟩)
    exact h.trans (by rfl)

theorem download_pdf_loop_ok_nonempty :
    ∀ (attempts : List AttemptOutcome) (le : Option (List Char)) (b : List Nat),
      download_pdf_loop attempts le = .ok b → b.isEmpty = false
  | [], le, b, h => by
    cases le with
    | none => exact absurd h (by simp [download_pdf_loop])
    | some e => exact absurd h (by simp [download_pdf_loop])
  | a :: rest, le, b, h => by
    rw [download_pdf_loop] at h
    repeat' split at h
    all_goals
      first
        | exact download_pdf_loop_ok_nonempty rest _ b h
        | (obtain rfl := Except.ok.inj h; simp_all)

/-- C10: `DownloadSession.download_pdf` never returns an empty byte string —
every successful return carries at least one byte — and an attempt whose
in-context request and click download both return zero-length bodies is
treated as a failed attempt: the loop proceeds to the next attempt with the
recorded last error unchanged. -/
theorem claim_C10_no_empty_success :
    (∀ (attempts : List AttemptOutcome) (b : List Nat),
      download_pdf attempts = .ok b → 0 < b.length) ∧
    (∀ (a : AttemptOutcome) (rest : List AttemptOutcome)
        (le : Option (List Char)),
      a.direct = .ok (some []) → a.viaEvent = .ok [] →
      download_pdf_loop (a :: rest) le = download_pdf_loop rest le) := by
  constructor
  · intro attempts b h
    have he := download_pdf_loop_ok_nonempty attempts none b h
    cases b with
    | nil => exact absurd he (by simp)
    | cons c cs => simp
  · intro a rest le hd hv
    simp only [download_pdf_loop, hd, hv, List.isEmpty_nil, if_true]

/-- C10 witness: the nonemptiness guarantee applied to a session whose
in-context request returns one byte. -/
theorem claim_C10_no_empty_success_witness :
    0 < ([7] : List Nat).length :=
  claim_C10_no_empty_success.1
    [⟨Except.ok (some [7]), Except.ok []⟩] [7] rfl

theorem splitSp_ne_nil : ∀ l : List Char, splitSp l ≠ []
  | [] => by simp [splitSp]
  | c :: rest => by
    rw [splitSp]
    by_cases hc : isPySpace c = true
    · rw [if_pos hc]
      exact List.cons_ne_nil _ _
    · rw [if_neg hc]
      rcases hr : splitSp rest with _ | ⟨w, ws⟩
      · exact absurd hr (splitSp_ne_nil rest)
      · rw [consHead]
        exact List.cons_ne_nil _ _

theorem mem_splitSp_chars :
    ∀ (l w : List Char), w ∈ splitSp l →
      ∀ c ∈ w, c ∈ l ∧ isPySpace c = false
  | [], w, hw, c, hc => by
    simp only [splitSp, List.mem_singleton] at hw
    subst hw
    simp at hc
  | a :: rest, w, hw, c, hc => by
    rw [splitSp] at hw
    by_cases ha : isPySpace a = true
    · rw [if_pos ha] at hw
      rcases List.mem_cons.1 hw with rfl | hw2
      · simp at hc
      · obtain ⟨h1, h2⟩ := mem_splitSp_chars rest w hw2 c hc
        exact ⟨List.mem_cons_of_mem _ h1, h2⟩
    · rw [if_neg ha] at hw
      have ha' : isPySpace a = false := by
        cases hb : isPySpace a with
        | false => rfl
        | true => exact absurd hb ha
      rcases hr : splitSp rest with _ | ⟨w0, ws⟩
      · exact absurd hr (splitSp_ne_nil rest)
      · rw [hr, consHead] at hw
        rcases List.mem_cons.1 hw with rfl | hw2
        · rcases List.mem_cons.1 hc with rfl | hc2
          · exact ⟨List.mem_cons_self _ _, ha'⟩
          · have hw0 : w0 ∈ splitSp rest := by
              rw [hr]
              exact List.mem_cons_self _ _
            obtain ⟨h1, h2⟩ := mem_splitSp_chars rest w0 hw0 c hc2
            exact ⟨List.mem_cons_of_mem _ h1, h2⟩
        · have hwr : w ∈ splitSp rest := by
            rw [hr]
            exact List.mem_cons_of_mem _ hw2
          obtain ⟨h1, h2⟩ := mem_splitSp_chars rest w hwr c hc
          exact ⟨List.mem_cons_of_mem _ h1, h2⟩

theorem splitSp_word_append :
    ∀ (w rest : List Char), (∀ c ∈ w, isPySpace c = false) →
      splitSp (w ++ ' ' :: rest) = w :: splitSp rest
  | [], rest, _ => by
    rw [List.nil_append, splitSp, if_pos (by decide : isPySpace ' ' = true)]
  | c :: w', rest, h => by
    have hc : isPySpace c = false := h c (List.mem_cons_self _ _)
    rw [List.cons_append, splitSp,
      if_neg (by rw [hc]; exact Bool.false_ne_true),
      splitSp_word_append w' rest (fun x hx => h x (List.mem_cons_of_mem _ hx)),
      consHead]

theorem splitSp_no_space :
    ∀ w : List Char, (∀ c ∈ w, isPySpace c = false) → splitSp w = [w]
  | [], _ => rfl
  | c :: w', h => by
    have hc : isPySpace c = false := h c (List.mem_cons_self _ _)
    rw [splitSp, if_neg (by rw [hc]; exact Bool.false_ne_true),
      splitSp_no_space w' (fun x hx => h x (List.mem_cons_of_mem _ hx)),
      consHead]

theorem wordsOf_joinWords :
    ∀ ws : List (List Char),
      (∀ w ∈ ws, w ≠ [] ∧ ∀ c ∈ w, isPySpace c = false) →
      wordsOf (joinWords ws) = ws
  | [], _ => rfl
  | [w], h => by
    obtain ⟨hne, hns⟩ := h w (List.mem_cons_self _ _)
    have hkeep : (!w.isEmpty) = true := by
      cases w with
      | nil => exact absurd rfl hne
      | cons a l => rfl
    rw [joinWords, wordsOf, splitSp_no_space w hns]
    simp [List.filter_cons, hkeep]
  | w :: w2 :: ws', h => by
    obtain ⟨hne, hns⟩ := h w (List.mem_cons_self _ _)
    have hrest : ∀ x ∈ w2 :: ws', x ≠ [] ∧ ∀ c ∈ x, isPySpace c = false :=
      fun x hx => h x (List.mem_cons_of_mem _ hx)
    have hkeep : (!w.isEmpty) = true := by
      cases w with
      | nil => exact absurd rfl hne
      | cons a l => rfl
    have hj : joinWords (w :: w2 :: ws') = w ++ ' ' :: joinWords (w2 :: ws') := rfl
    have IH := wordsOf_joinWords (w2 :: ws') hrest
    rw [wordsOf] at IH
    rw [hj, wordsOf, splitSp_word_append w _ hns]
    simp [List.filter_cons, hkeep, IH]

/-- A character whose code point is below 192 is not a key of the diacritic
table, so `find?` fails. -/
theorem find?_none_of_lt :
    ∀ (t : List (Char × Char)) (c : Char), c.toNat < 192 →
      t.all (fun p => decide (191 < p.1.toNat)) = true →
      t.find? (fun p => p.1 == c) = none
  | [], _, _, _ => rfl
  | p :: t, c, hc, hall => by
    rw [List.all_cons, Bool.and_eq_true] at hall
    have hne : (p.1 == c) = false := by
      rw [beq_eq_false_iff_ne]
      intro he
      have hgt := of_decide_eq_true hall.1
      rw [he] at hgt
      omega
    rw [List.find?, hne]
    exact find?_none_of_lt t c hc hall.2

/-- Enumeration of the whitespace characters accepted by `isPySpace`. -/
theorem isPySpace_cases (c : Char) (h : isPySpace c = true) :
    c = ' ' ∨ c = '\t' ∨ c = '\n' ∨ c = '\r' ∨
      c = Char.ofNat 11 ∨ c = Char.ofNat 12 := by
  rw [isPySpace] at h
  simp only [Bool.or_eq_true, beq_iff_eq] at h
  tauto

/-- Stability: the per-character pipeline is the identity on the kept
characters (lowercase ASCII letters, digits, apostrophe, whitespace). -/
theorem normChar_keep (c : Char) (hk : isKeepChar c = true) : normChar c = c := by
  have hkn : (97 ≤ c.toNat ∧ c.toNat ≤ 122) ∨ (48 ≤ c.toNat ∧ c.toNat ≤ 57) ∨
      c.toNat = 39 ∨ c.toNat = 32 ∨ c.toNat = 9 ∨ c.toNat = 10 ∨
      c.toNat = 13 ∨ c.toNat = 11 ∨ c.toNat = 12 := by
    rw [isKeepChar] at hk
    rcases Bool.or_eq_true .. ▸ hk with hk1 | hF
    · rcases Bool.or_eq_true .. ▸ hk1 with hk2 | hE
      · rcases Bool.or_eq_true .. ▸ hk2 with hAB | hCD
        · rw [Bool.and_eq_true] at hAB
          exact Or.inl ⟨of_decide_eq_true hAB.1, of_decide_eq_true hAB.2⟩
        · rw [Bool.and_eq_true] at hCD
          exact Or.inr
            (Or.inl ⟨of_decide_eq_true hCD.1, of_decide_eq_true hCD.2⟩)
      · exact Or.inr (Or.inr (Or.inl (beq_iff_eq.mp hE)))
    · rcases isPySpace_cases c hF with h | h | h | h | h | h <;>
        subst h <;> decide
  have h1 : foldDiacritic c = c := by
    rw [foldDiacritic,
      find?_none_of_lt diacriticTable c (by omega) (by decide)]
  have h2 : asciiLower c = c := by
    have hcond : ¬ ((65 ≤ c.toNat && c.toNat ≤ 90) = true) := by
      intro hcon
      rw [Bool.and_eq_true] at hcon
      have ha := of_decide_eq_true hcon.1
      have hb := of_decide_eq_true hcon.2
      omega
    rw [asciiLower, if_neg hcond]
  have h3 : sepToSpace c = c := by
    have hcond : ¬ ((c.toNat == 45 || c.toNat == 47 || c.toNat == 95 ||
        c.toNat == 46) = true) := by
      intro hcon
      simp only [Bool.or_eq_true, beq_iff_eq] at hcon
      omega
    rw [sepToSpace, if_neg hcond]
  rw [normChar, h1, h2, h3]

theorem normalizeChars_keep (l : List Char)
    (h : ∀ c ∈ l, isKeepChar c = true) : normalizeChars l = l := by
  rw [normalizeChars]
  have hmap : l.map normChar = l := by
    have hcongr : l.map normChar = l.map id :=
      List.map_congr_left (fun a ha => normChar_keep a (h a ha))
    rw [hcongr, List.map_id]
  rw [hmap]
  exact List.filter_eq_self.2 h

theorem mem_joinWords :
    ∀ (ws : List (List Char)) (c : Char), c ∈ joinWords ws →
      c = ' ' ∨ ∃ w ∈ ws, c ∈ w
  | [], c, hc => by simp [joinWords] at hc
  | [w], c, hc => Or.inr ⟨w, List.mem_cons_self _ _, hc⟩
  | w :: w2 :: ws', c, hc => by
    have hc' : c ∈ w ++ ' ' :: joinWords (w2 :: ws') := hc
    rcases List.mem_append.1 hc' with h | h
    · exact Or.inr ⟨w, List.mem_cons_self _ _, h⟩
    · rcases List.mem_cons.1 h with rfl | h2
      · exact Or.inl rfl
      · rcases mem_joinWords (w2 :: ws') c h2 with h3 | ⟨x, hx, hcx⟩
        · exact Or.inl h3
        · exact Or.inr ⟨x, List.mem_cons_of_mem _ hx, hcx⟩

/-- Idempotence of the spec-modelled normalizer. -/
theorem normalizeText_idem (s : List Char) :
    normalizeText (normalizeText s) = normalizeText s := by
  have hwords : ∀ w ∈ wordsOf (normalizeChars s),
      w ≠ [] ∧ ∀ c ∈ w, isPySpace c = false := by
    intro w hw
    rw [wordsOf] at hw
    have hmem := List.mem_of_mem_filter hw
    have hkeep := List.of_mem_filter hw
    refine ⟨?_, ?_⟩
    · intro he
      subst he
      simp at hkeep
    · intro c hc
      exact (mem_splitSp_chars _ w hmem c hc).2
  have hchars : ∀ c ∈ joinWords (wordsOf (normalizeChars s)),
      isKeepChar c = true := by
    intro c hc
    rcases mem_joinWords _ c hc with rfl | ⟨w, hw, hcw⟩
    · decide
    · rw [wordsOf] at hw
      have hmem := List.mem_of_mem_filter hw
      have hcl : c ∈ normalizeChars s := (mem_splitSp_chars _ w hmem c hcw).1
      rw [normalizeChars] at hcl
      exact List.of_mem_filter hcl
  have hJ : normalizeText s = joinWords (wordsOf (normalizeChars s)) := rfl
  rw [hJ, normalizeText, normalizeChars_keep _ hchars, wordsOf_joinWords _ hwords]

/-- C8 counterexample: on the normalizer modelled from the spec's own step
list (apostrophes are preserved by the stripping step), the accented
`Côte-d'Ivoire` normalizes to `cote d'ivoire`, which differs from the
normalization of `cote d ivoire` — the claimed three-way equality fails. -/
theorem claim_C8_counterexample :
    normalizeText "Côte-d'Ivoire".toList
      ≠ normalizeText "cote d ivoire".toList := by
  decide

/-- C8 (amended): the normalizer is idempotent, and it is case-,
diacritic- and separator-insensitive up to apostrophes:
`normalize("cote d ivoire")` and `normalize("COTE_D_IVOIRE")` agree, while
`normalize("Côte-d'Ivoire")` is `cote d'ivoire`, differing from the other
two only by the retained apostrophe. -/
theorem claim_C8_normalize_properties :
    (∀ s : List Char, normalizeText (normalizeText s) = normalizeText s) ∧
    normalizeText "cote d ivoire".toList
      = normalizeText "COTE_D_IVOIRE".toList ∧
    normalizeText "Côte-d'Ivoire".toList = "cote d'ivoire".toList :=
  ⟨normalizeText_idem, by decide, by decide⟩

theorem insertLex_perm :
    ∀ (x : List Char) (l : List (List Char)), (insertLex x l).Perm (x :: l)
  | _, [] => List.Perm.refl _
  | x, y :: ys => by
    rw [insertLex]
    by_cases h : lexLe x y = true
    · rw [if_pos h]
    · rw [if_neg h]
      exact (List.Perm.cons y (insertLex_perm x ys)).trans (List.Perm.swap x y ys)

theorem sortLex_perm : ∀ l : List (List Char), (sortLex l).Perm l
  | [] => List.Perm.refl _
  | x :: xs =>
    (insertLex_perm x (sortLex xs)).trans (List.Perm.cons x (sortLex_perm xs))

theorem lexLe_total : ∀ a b : List Char, lexLe a b = true ∨ lexLe b a = true
  | [], _ => Or.inl rfl
  | _ :: _, [] => Or.inr rfl
  | a :: as, b :: bs => by
    rcases lt_trichotomy a b with h | h | h
    · refine Or.inl ?_
      rw [lexLe, if_pos h]
    · subst h
      rw [lexLe, lexLe]
      simp only [if_neg (lt_irrefl a)]
      exact lexLe_total as bs
    · refine Or.inr ?_
      rw [lexLe, if_pos h]

theorem insertLex_chain :
    ∀ (x : List Char) (l : List (List Char)),
      List.Chain' (fun a b => lexLe a b = true) l →
      List.Chain' (fun a b => lexLe a b = true) (insertLex x l)
  | x, [], _ => List.chain'_singleton x
  | x, y :: ys, h => by
    rw [insertLex]
    by_cases hxy : lexLe x y = true
    · rw [if_pos hxy]
      exact List.chain'_cons.2 ⟨hxy, h⟩
    · rw [if_neg hxy]
      have hyx : lexLe y x = true := (lexLe_total x y).resolve_left hxy
      have hins := insertLex_chain x ys h.tail
      refine List.chain'_cons'.2 ⟨?_, hins⟩
      intro b hb
      cases ys with
      | nil =>
        rw [insertLex, List.head?_cons, Option.mem_def] at hb
        obtain rfl := Option.some.inj hb
        exact hyx
      | cons z zs =>
        rw [insertLex] at hb
        by_cases hxz : lexLe x z = true
        · rw [if_pos hxz, List.head?_cons, Option.mem_def] at hb
          obtain rfl := Option.some.inj hb
          exact hyx
        · rw [if_neg hxz, List.head?_cons, Option.mem_def] at hb
          obtain rfl := Option.some.inj hb
          exact (List.chain'_cons.1 h).1

theorem sortLex_chain :
    ∀ l : List (List Char),
      List.Chain' (fun a b => lexLe a b = true) (sortLex l)
  | [] => List.chain'_nil
  | x :: xs => insertLex_chain x (sortLex xs) (sortLex_chain xs)

theorem dedupUrlsGo_subset :
    ∀ (l seen : List (List Char)) (v : List Char),
      v ∈ dedupUrlsGo seen l → v ∈ l
  | [], _, v, h => by simp [dedupUrlsGo] at h
  | u :: rest, seen, v, h => by
    rw [dedupUrlsGo] at h
    by_cases hu : u ∈ seen
    · rw [if_pos hu] at h
      exact List.mem_cons_of_mem _ (dedupUrlsGo_subset rest seen v h)
    · rw [if_neg hu] at h
      rcases List.mem_cons.1 h with rfl | h2
      · exact List.mem_cons_self _ _
      · exact List.mem_cons_of_mem _ (dedupUrlsGo_subset rest (u :: seen) v h2)

theorem dedupUrlsGo_countP :
    ∀ (l seen : List (List Char)) (u : List Char),
      (dedupUrlsGo seen l).countP (fun v => v == u)
        = if u ∉ seen ∧ u ∈ l then 1 else 0
  | [], seen, u => by simp [dedupUrlsGo]
  | v :: rest, seen, u => by
    rw [dedupUrlsGo]
    by_cases hv : v ∈ seen
    · rw [if_pos hv, dedupUrlsGo_countP rest seen u]
      by_cases huv : u = v
      · subst huv
        simp [hv]
      · have hiff : (u ∉ seen ∧ u ∈ rest) ↔ (u ∉ seen ∧ u ∈ v :: rest) := by
          simp only [List.mem_cons]
          constructor
          · rintro ⟨hs, hm⟩
            exact ⟨hs, Or.inr hm⟩
          · rintro ⟨hs, hm⟩
            rcases hm with h | h
            · exact absurd h huv
            · exact ⟨hs, h⟩
        exact if_congr hiff rfl rfl
    · rw [if_neg hv, List.countP_cons, dedupUrlsGo_countP rest (v :: seen) u]
      by_cases huv : u = v
      · subst huv
        simp [hv, List.mem_cons]
      · have h1 : (v == u) = false := by
          simp only [beq_eq_false_iff_ne, ne_eq]
          exact fun h => huv h.symm
        have h2 : (u ∉ v :: seen ∧ u ∈ rest) ↔ (u ∉ seen ∧ u ∈ v :: rest) := by
          simp only [List.mem_cons, not_or]
          constructor
          · rintro ⟨⟨_, hs⟩, hm⟩
            exact ⟨hs, Or.inr hm⟩
          · rintro ⟨hs, hm⟩
            rcases hm with h | h
            · exact absurd h huv
            · exact ⟨⟨huv, hs⟩, h⟩
        rw [h1]
        simp only [Bool.false_eq_true, if_false, add_zero]
        rw [if_congr h2 rfl rfl]

/-- C5 counterexample: a scanned page whose DOM yields no `.pdf` anchors
but whose raw text mentions `b.pdf` before `a.pdf` — the regex fallback of
`parse_pdf_links` returns the URLs in sorted order with empty anchor
texts, not in the insertion order of first discovery. -/
theorem claim_C5_counterexample :
    parse_pdf_links (some [])
        ["https://x.org/b.pdf".toList, "https://x.org/a.pdf".toList]
      = [("https://x.org/a.pdf".toList, ([] : List Char)),
         ("https://x.org/b.pdf".toList, ([] : List Char))] ∧
    parse_pdf_links (some [])
        ["https://x.org/b.pdf".toList, "https://x.org/a.pdf".toList]
      ≠ [("https://x.org/b.pdf".toList, ([] : List Char)),
         ("https://x.org/a.pdf".toList, ([] : List Char))] :=
  ⟨by decide, by decide⟩

/-- C5 (amended): when the DOM extraction finds anchor links,
`parse_pdf_links` returns their de-duplication — exactly one pair per
distinct URL (exact case-sensitive string identity), the first
occurrence's anchor text kept, and the insertion order of first discovery
preserved (a sublist of the input); but when no anchor links are found (a
parse failure, or an anchor-less/plain-text payload such as a mirror
response), the regex fallback returns exactly one pair per distinct text
URL in lexicographically sorted order, each with empty anchor text. -/
theorem claim_C5_parse_pdf_links :
    (∀ (links : List (List Char × List Char)) (found : List (List Char)),
      links ≠ [] → parse_pdf_links (some links) found = dedupLinks links) ∧
    (∀ links : List (List Char × List Char),
      (dedupLinks links).Sublist links ∧
      (∀ u, (dedupLinks links).countP (fun p => p.1 == u)
          = if u ∈ links.map Prod.fst then 1 else 0) ∧
      (∀ u t, (u, t) ∈ dedupLinks links →
        links.find? (fun p => p.1 == u) = some (u, t))) ∧
    (∀ found : List (List Char),
      parse_pdf_links none found = regexFallback found ∧
      parse_pdf_links (some []) found = regexFallback found) ∧
    (∀ (found : List (List Char)) (u t : List Char),
      (u, t) ∈ regexFallback found → t = [] ∧ u ∈ found) ∧
    (∀ (found : List (List Char)) (u : List Char),
      (regexFallback found).countP (fun p => p.1 == u)
        = if u ∈ found then 1 else 0) ∧
    (∀ found : List (List Char),
      List.Chain' (fun a b => lexLe a.1 b.1 = true) (regexFallback found)) := by
  refine ⟨?_, ?_, ?_, ?_, ?_, ?_⟩
  · intro links found hne
    rw [parse_pdf_links]
    have hie : links.isEmpty = false := by
      cases links with
      | nil => exact absurd rfl hne
      | cons a l => rfl
    rw [hie]
    simp only [Bool.false_eq_true, if_false]
  · intro links
    refine ⟨dedupGo_sublist links [], ?_, ?_⟩
    · intro u
      have h0 : (u ∉ ([] : List (List Char)) ∧ u ∈ links.map Prod.fst)
          ↔ u ∈ links.map Prod.fst := by
        simp
      rw [dedupLinks, dedupGo_countP links [] u, if_congr h0 rfl rfl]
    · intro u t h
      exact (dedupGo_find links [] u t h).2
  · intro found
    exact ⟨rfl, rfl⟩
  · intro found u t h
    rw [regexFallback] at h
    rcases List.mem_map.1 h with ⟨v, hv, heq⟩
    obtain ⟨h1, h2⟩ := Prod.mk.injEq .. ▸ heq
    subst h1
    exact ⟨h2.symm,
      dedupUrlsGo_subset found [] v ((sortLex_perm _).mem_iff.1 hv)⟩
  · intro found u
    have hp := List.Perm.countP_eq (fun v => v == u)
      (sortLex_perm (dedupUrlsGo [] found))
    have h0 : (u ∉ ([] : List (List Char)) ∧ u ∈ found) ↔ u ∈ found := by
      simp
    rw [regexFallback, List.countP_map]
    show (sortLex (dedupUrlsGo [] found)).countP (fun v => v == u) = _
    rw [hp, dedupUrlsGo_countP found [] u, if_congr h0 rfl rfl]
  · intro found
    rw [regexFallback, List.chain'_map]
    exact sortLex_chain (dedupUrlsGo [] found)

/-- C5 witness: the DOM path de-duplicates keeping the first anchor text,
and the fallback path yields the sorted empty-anchor pair concretely. -/
theorem claim_C5_parse_pdf_links_witness :
    parse_pdf_links
        (some [("https://x.org/a.pdf".toList, "first".toList),
               ("https://x.org/a.pdf".toList, "second".toList)]) []
      = dedupLinks
          [("https://x.org/a.pdf".toList, "first".toList),
           ("https://x.org/a.pdf".toList, "second".toList)] ∧
    List.find? (fun p => p.1 == "https://x.org/a.pdf".toList)
      [("https://x.org/a.pdf".toList, "first".toList),
       ("https://x.org/a.pdf".toList, "second".toList)]
      = some ("https://x.org/a.pdf".toList, "first".toList) ∧
    (([] : List Char) = [] ∧ "https://x.org/a.pdf".toList
      ∈ ["https://x.org/b.pdf".toList, "https://x.org/a.pdf".toList]) :=
  ⟨claim_C5_parse_pdf_links.1
      [("https://x.org/a.pdf".toList, "first".toList),
       ("https://x.org/a.pdf".toList, "second".toList)] [] (by decide),
   (claim_C5_parse_pdf_links.2.1
      [("https://x.org/a.pdf".toList, "first".toList),
       ("https://x.org/a.pdf".toList, "second".toList)]).2.2
     "https://x.org/a.pdf".toList "first".toList (by decide),
   claim_C5_parse_pdf_links.2.2.2.1
     ["https://x.org/b.pdf".toList, "https://x.org/a.pdf".toList]
     "https://x.org/a.pdf".toList [] (by decide)⟩
